import Mathlib

/-!
Verification of the Level-Aware RoI Pooling Router
(mmdet/models/roi_heads/roi_extractors/single_level_roi_extractor.py).

Shallow embedding conventions:

* Tensor rows become Lean lists; an RoI row (batch_index, x1, y1, x2, y2)
  becomes the structure Roi with real-valued fields.  Float32 arithmetic
  (the forward pass runs under force_fp32) is idealised as real arithmetic.
* IEEE NaN is tracked explicitly where it can arise: torch.sqrt of a
  negative argument yields NaN, which then propagates through log2, floor
  and clamp; the final .long() cast of a NaN is undefined behaviour.  We
  model the level computation as an Option: none is the NaN outcome.
* Each level's pooling operator (an external collaborator: the roi_layers
  entry applied to its feature map) is modelled as an injected function
  List Roi -> Option (List PF): some rows on success, none when the call
  raises.  The source wraps the call in try/except: pass, so a failure
  skips only the append to roi_feats; the index list is appended before
  the try block in either case.
* Fancy indexing of a tensor by an index tensor is getAll: it fails
  (none, modelling the runtime IndexError) as soon as one index is out of
  bounds.
* torch.cat of an empty Python list raises, hence the isEmpty guard in
  forward mirrors the only situation where roi_feats can be empty.
-/

namespace MMDet

/-- An RoI tensor row: (batch index, x1, y1, x2, y2), in absolute
feature-map coordinates, as in the source docstring. -/
structure Roi where
  b : ℝ
  x1 : ℝ
  y1 : ℝ
  x2 : ℝ
  y2 : ℝ

/-- Default RoI used only as the junk value of List.getD at in-bounds
positions. -/
def roiDefault : Roi := ⟨0, 0, 0, 0, 0⟩

/-- The clamped level formula of SingleRoIExtractor.map_roi_levels on a
single RoI, for a non-NaN scale:
floor(log2(sqrt((x2-x1)*(y2-y1)) / finest_scale + 1e-6)) clamped into
[0, num_levels-1].  torch.clamp(min=0, max=num_levels-1) computes
min(max(x, 0), num_levels-1); floor-then-clamp over floats with integer
bounds coincides with the integer clamp of the floor used here. -/
noncomputable def lvlInt (finest : ℝ) (numLevels : ℕ) (r : Roi) : ℤ :=
  min (max ⌊Real.logb 2 (Real.sqrt ((r.x2 - r.x1) * (r.y2 - r.y1)) / finest + 1e-6)⌋ 0)
    ((numLevels : ℤ) - 1)

/-- SingleRoIExtractor.map_roi_levels on one RoI row.  When the width and
height product is negative, torch.sqrt returns NaN, which propagates
through log2, floor and clamp; the subsequent .long() cast is undefined,
so the result is modelled as none.  Otherwise the float pipeline is the
real-valued lvlInt. -/
noncomputable def mapRoiLevel (finest : ℝ) (numLevels : ℕ) (r : Roi) : Option ℤ :=
  if (r.x2 - r.x1) * (r.y2 - r.y1) < 0 then none else some (lvlInt finest numLevels r)

/-- Evaluation of the floor of a base-2 logarithm from power-of-two
bounds. -/
lemma floor_logb_two_eq (x : ℝ) (n : ℤ) (h1 : (2:ℝ) ^ n ≤ x) (h2 : x < (2:ℝ) ^ (n + 1)) :
    ⌊Real.logb 2 x⌋ = n := by
  have hx : 0 < x := lt_of_lt_of_le (zpow_pos (by norm_num) n) h1
  have hlogb : ∀ m : ℤ, Real.logb 2 ((2:ℝ) ^ m) = m := by
    intro m
    rw [Real.logb, Real.log_zpow, mul_div_assoc,
      div_self (Real.log_pos (by norm_num)).ne', mul_one]
  rw [Int.floor_eq_iff]
  refine ⟨?_, ?_⟩
  · calc (n:ℝ) = Real.logb 2 ((2:ℝ) ^ n) := (hlogb n).symm
      _ ≤ Real.logb 2 x :=
        Real.logb_le_logb_of_le (by norm_num) (zpow_pos (by norm_num) n) h1
  · calc Real.logb 2 x < Real.logb 2 ((2:ℝ) ^ (n + 1)) :=
        Real.logb_lt_logb (by norm_num) hx h2
      _ = ((n + 1 : ℤ) : ℝ) := hlogb (n + 1)
      _ = (n:ℝ) + 1 := by push_cast; ring

/-- Reduction of mapRoiLevel on a well-formed RoI (nonnegative width times
height product). -/
lemma mapRoiLevel_of_nonneg {finest : ℝ} {K : ℕ} {r : Roi}
    (h : 0 ≤ (r.x2 - r.x1) * (r.y2 - r.y1)) :
    mapRoiLevel finest K r = some (lvlInt finest K r) := by
  rw [mapRoiLevel, if_neg (not_lt.mpr h)]

/-- Reduction of mapRoiLevel on a malformed RoI: the float sqrt of the
negative product is NaN, so no valid level is produced. -/
lemma mapRoiLevel_of_neg {finest : ℝ} {K : ℕ} {r : Roi}
    (h : (r.x2 - r.x1) * (r.y2 - r.y1) < 0) :
    mapRoiLevel finest K r = none := by
  rw [mapRoiLevel, if_pos h]

/-- Lower clamp bound of the level formula. -/
lemma lvlInt_nonneg (finest : ℝ) {K : ℕ} (hK : 1 ≤ K) (r : Roi) :
    0 ≤ lvlInt finest K r := by
  have h1 : (1:ℤ) ≤ (K:ℤ) := by exact_mod_cast hK
  unfold lvlInt
  omega

/-- Upper clamp bound of the level formula. -/
lemma lvlInt_le (finest : ℝ) (K : ℕ) (r : Roi) :
    lvlInt finest K r ≤ (K:ℤ) - 1 := by
  unfold lvlInt
  omega

/-- A small RoI used as a concrete input: unit box, scale 1. -/
def roiUnit : Roi := ⟨0, 0, 0, 1, 1⟩

/-- A concrete RoI of scale exactly 112 = 56 * 2. -/
def roiBig : Roi := ⟨0, 0, 0, 112, 112⟩

/-- A concrete RoI of scale exactly 111.999. -/
noncomputable def roiMid : Roi := ⟨0, 0, 0, 111999 / 1000, 111999 / 1000⟩

/-- A malformed RoI with x2 < x1 and nonnegative height, so the width
times height product is negative. -/
def roiBad : Roi := ⟨0, 2, 0, 1, 1⟩

/-- A second malformed RoI (for a separate concrete refutation). -/
def roiBad2 : Roi := ⟨0, 3, 0, 1, 2⟩

lemma lvlInt_roiUnit {K : ℕ} (hK : 1 ≤ K) : lvlInt 56 K roiUnit = 0 := by
  have hsq : Real.sqrt ((roiUnit.x2 - roiUnit.x1) * (roiUnit.y2 - roiUnit.y1)) = 1 := by
    show Real.sqrt (((1:ℝ) - 0) * ((1:ℝ) - 0)) = 1
    norm_num
  have hfl : ⌊Real.logb 2
      (Real.sqrt ((roiUnit.x2 - roiUnit.x1) * (roiUnit.y2 - roiUnit.y1)) / 56 + 1e-6)⌋
      = (-6 : ℤ) := by
    rw [hsq]
    exact floor_logb_two_eq _ (-6) (by norm_num) (by norm_num)
  have h1 : (1:ℤ) ≤ (K:ℤ) := by exact_mod_cast hK
  unfold lvlInt
  rw [hfl]
  omega

lemma lvlInt_roiBig {K : ℕ} (hK : 2 ≤ K) : lvlInt 56 K roiBig = 1 := by
  have hsq : Real.sqrt ((roiBig.x2 - roiBig.x1) * (roiBig.y2 - roiBig.y1)) = 112 := by
    show Real.sqrt (((112:ℝ) - 0) * ((112:ℝ) - 0)) = 112
    rw [show ((112:ℝ) - 0) = 112 by norm_num]
    exact Real.sqrt_mul_self (by norm_num)
  have hfl : ⌊Real.logb 2
      (Real.sqrt ((roiBig.x2 - roiBig.x1) * (roiBig.y2 - roiBig.y1)) / 56 + 1e-6)⌋
      = (1 : ℤ) := by
    rw [hsq]
    exact floor_logb_two_eq _ 1 (by norm_num) (by norm_num)
  have h1 : (2:ℤ) ≤ (K:ℤ) := by exact_mod_cast hK
  unfold lvlInt
  rw [hfl]
  omega

lemma lvlInt_roiMid {K : ℕ} (hK : 1 ≤ K) : lvlInt 56 K roiMid = 0 := by
  have hsq : Real.sqrt ((roiMid.x2 - roiMid.x1) * (roiMid.y2 - roiMid.y1))
      = 111999 / 1000 := by
    show Real.sqrt (((111999 / 1000 : ℝ) - 0) * ((111999 / 1000 : ℝ) - 0)) = 111999 / 1000
    rw [show ((111999 / 1000 : ℝ) - 0) = 111999 / 1000 by norm_num]
    exact Real.sqrt_mul_self (by norm_num)
  have hfl : ⌊Real.logb 2
      (Real.sqrt ((roiMid.x2 - roiMid.x1) * (roiMid.y2 - roiMid.y1)) / 56 + 1e-6)⌋
      = (0 : ℤ) := by
    rw [hsq]
    exact floor_logb_two_eq _ 0 (by norm_num) (by norm_num)
  have h1 : (1:ℤ) ≤ (K:ℤ) := by exact_mod_cast hK
  unfold lvlInt
  rw [hfl]
  omega

lemma mapRoiLevel_roiBad (finest : ℝ) (K : ℕ) : mapRoiLevel finest K roiBad = none := by
  apply mapRoiLevel_of_neg
  show ((1:ℝ) - 2) * ((1:ℝ) - 0) < 0
  norm_num

lemma mapRoiLevel_roiBad2 (finest : ℝ) (K : ℕ) : mapRoiLevel finest K roiBad2 = none := by
  apply mapRoiLevel_of_neg
  show ((1:ℝ) - 3) * ((2:ℝ) - 0) < 0
  norm_num

/-- An injected per-level pooling call: the source's
extractor(feat, level_rois) with the level's feature map already fixed,
returning its pooled rows or failing (raising). -/
def Pool (PF : Type) : Type := List Roi → Option (List PF)

/-- Collects a list of optional values; none as soon as one entry is
none.  Used to model the target-level tensor, whose entries are all
defined exactly when no RoI produced a NaN scale. -/
def allSome {α : Type} : List (Option α) → Option (List α)
  | [] => some []
  | none :: _ => none
  | some a :: t => (allSome t).map (fun l => a :: l)

/-- The target_lvls tensor of forward: map_roi_levels applied to every
RoI row. -/
noncomputable def targetLvls (finest : ℝ) (numLevels : ℕ) (rois : List Roi) :
    Option (List ℤ) :=
  allSome (rois.map (mapRoiLevel finest numLevels))

/-- Fancy indexing of a tensor by an index tensor:
torch.cat(roi_feats)[indices].  An out-of-bounds entry raises an
IndexError at runtime, modelled as none. -/
def getAll {α : Type} (xs : List α) : List ℕ → Option (List α)
  | [] => some []
  | i :: t =>
    match xs[i]? with
    | none => none
    | some a => (getAll xs t).map (fun l => a :: l)

/-- torch.nonzero((target_lvls == level).int()).view(-1): the ascending
positions whose target level equals the loop's level counter. -/
def selIdx (tl : List ℤ) (ℓ : ℕ) : List ℕ :=
  (List.range tl.length).filter (fun i => decide (tl[i]? = some (ℓ : ℤ)))

/-- rois[level_indices]: the RoI rows routed to one level, in original
relative order. -/
def levelRois (rois2 : List Roi) (tl : List ℤ) (ℓ : ℕ) : List Roi :=
  (selIdx tl ℓ).filterMap (fun i => rois2[i]?)

/-- torch.cat(indices, dim=0): the per-level index lists concatenated in
ascending level order.  The index list of every level is appended before
the try block, so failed levels still contribute their indices. -/
def catIndices (tl : List ℤ) (K : ℕ) : List ℕ :=
  ((List.range K).map (fun ℓ => selIdx tl ℓ)).flatten

/-- The per-level loop of forward, carrying the level counter: each
level's pooler is called on its routed RoIs; on success the rows are
appended to roi_feats, on failure the except: pass arm skips the append
(the level silently contributes no rows). -/
def poolBlocksAux {PF : Type} (rois2 : List Roi) (tl : List ℤ) :
    List (Pool PF) → ℕ → List (List PF)
  | [], _ => []
  | p :: ps, ℓ =>
    match p (levelRois rois2 tl ℓ) with
    | none => poolBlocksAux rois2 tl ps (ℓ + 1)
    | some out => out :: poolBlocksAux rois2 tl ps (ℓ + 1)

/-- The roi_feats list accumulated by the per-level loop. -/
def poolBlocks {PF : Type} (pools : List (Pool PF)) (rois2 : List Roi) (tl : List ℤ) :
    List (List PF) :=
  poolBlocksAux rois2 tl pools 0

/-- Comparison of index-value pairs by value. -/
def leFst (a b : ℕ × ℕ) : Prop := a.1 ≤ b.1

instance : DecidableRel leFst := fun a b => inferInstanceAs (Decidable (a.1 ≤ b.1))

instance : IsTotal (ℕ × ℕ) leFst := ⟨fun a b => Nat.le_total a.1 b.1⟩

instance : IsTrans (ℕ × ℕ) leFst := ⟨fun _ _ _ h1 h2 => Nat.le_trans h1 h2⟩

/-- Modelled from the spec: mmdet.core.utils.misc.topk (whose source is
not under src/) with largest=False and k = the full length, as used in
forward, computes the reassembly permutation: the positions that list
the combined index sequence in ascending order (spec 4.2 step 5, an
argsort).  Since the sorted values are pairwise distinct the result does
not depend on the sorting algorithm; insertion sort on value-position
pairs is used here. -/
def argsortAsc (cs : List ℕ) : List ℕ :=
  (List.insertionSort leFst (cs.zip (List.range cs.length))).map Prod.snd

/-- The optional uniform rescale step of forward.  The base-class method
roi_rescale is not under src/, so it enters the model as the injected
per-box function rr (the spec, 4.2 step 2, says only that all RoI boxes
are rescaled by the factor, one box at a time). -/
def appliedRois (rr : ℝ → Roi → Roi) (rois : List Roi) (sf : Option ℝ) : List Roi :=
  match sf with
  | none => rois
  | some s => rois.map (rr s)

/-- SingleRoIExtractor.forward.  feats and roi_layers are zipped in the
source loop, so each level enters as one Pool value; K = len(feats) is
the list length.  With a single level the first pooler is applied to the
full RoI list and returned directly (before the rescale step).  With no
level, torch.cat of the empty indices list raises.  Otherwise: compute
target levels, optionally rescale, run the per-level loop, concatenate,
and gather through the argsort permutation; torch.cat raises when
roi_feats stayed empty (isEmpty guard). -/
noncomputable def forward {PF : Type} (finest : ℝ) (rr : ℝ → Roi → Roi)
    (pools : List (Pool PF)) (rois : List Roi) (sf : Option ℝ) : Option (List PF) :=
  match pools with
  | [] => none
  | [p] => p rois
  | p₀ :: p₁ :: rest =>
    match targetLvls finest (p₀ :: p₁ :: rest).length rois with
    | none => none
    | some tl =>
      let rois2 := appliedRois rr rois sf
      let blocks := poolBlocks (p₀ :: p₁ :: rest) rois2 tl
      if blocks.isEmpty then none
      else getAll blocks.flatten (argsortAsc (catIndices tl (p₀ :: p₁ :: rest).length))

/-- The family of K all-succeeding rowwise poolers built from a per-level
per-RoI pooling function g: the level pooler capability of spec 4.3
(rows equal to the routed RoIs, in order). -/
def poolsOf {PF : Type} (g : ℕ → Roi → PF) (K : ℕ) : List (Pool PF) :=
  (List.range K).map (fun ℓ => fun rs => some (rs.map (g ℓ)))

/-- The pooled feature that row i of the output must equal: the per-RoI
pooling function of the level assigned to rois[i], applied to rois[i]. -/
noncomputable def pooledRowSpec {PF : Type} (finest : ℝ) (K : ℕ) (g : ℕ → Roi → PF)
    (rois : List Roi) (i : ℕ) : PF :=
  g (lvlInt finest K (rois.getD i roiDefault)).toNat (rois.getD i roiDefault)

lemma allSome_eq_some_iff {α : Type} (l : List (Option α)) (out : List α) :
    allSome l = some out ↔ l = out.map some := by
  induction l generalizing out with
  | nil =>
    cases out <;> simp [allSome]
  | cons h t ih =>
    cases h with
    | none =>
      simp only [allSome]
      constructor
      · intro hc; exact absurd hc (by simp)
      · intro hc
        cases out with
        | nil => simp at hc
        | cons b out2 => simp at hc
    | some a =>
      simp only [allSome, Option.map_eq_some']
      constructor
      · rintro ⟨l2, hl2, rfl⟩
        simp [(ih l2).mp hl2]
      · intro hc
        cases out with
        | nil => simp at hc
        | cons b out2 =>
          simp only [List.map_cons, List.cons.injEq, Option.some.injEq] at hc
          obtain ⟨rfl, ht⟩ := hc
          exact ⟨out2, (ih out2).mpr ht, rfl⟩

/-- On a well-formed RoI list the target-level tensor is defined and is
exactly the row-wise clamped level formula. -/
lemma targetLvls_of_wf {finest : ℝ} {K : ℕ} {rois : List Roi}
    (h : ∀ r ∈ rois, 0 ≤ (r.x2 - r.x1) * (r.y2 - r.y1)) :
    targetLvls finest K rois = some (rois.map (lvlInt finest K)) := by
  rw [targetLvls, allSome_eq_some_iff, List.map_map]
  exact List.map_congr_left fun r hr => mapRoiLevel_of_nonneg (h r hr)

/-- Conversely, a defined target-level tensor forces every RoI to be
well-formed and equals the row-wise level formula. -/
lemma targetLvls_eq_some {finest : ℝ} {K : ℕ} {rois : List Roi} {tl : List ℤ}
    (h : targetLvls finest K rois = some tl) :
    tl = rois.map (lvlInt finest K) ∧
      ∀ r ∈ rois, 0 ≤ (r.x2 - r.x1) * (r.y2 - r.y1) := by
  rw [targetLvls, allSome_eq_some_iff] at h
  induction rois generalizing tl with
  | nil =>
    cases tl with
    | nil => exact ⟨rfl, by simp⟩
    | cons v tl2 => simp at h
  | cons r rois2 ih =>
    cases tl with
    | nil => simp at h
    | cons v tl2 =>
      simp only [List.map_cons, List.cons.injEq] at h
      obtain ⟨hr, ht⟩ := h
      by_cases hneg : (r.x2 - r.x1) * (r.y2 - r.y1) < 0
      · rw [mapRoiLevel_of_neg hneg] at hr
        exact absurd hr (by simp)
      · have hge := not_lt.mp hneg
        rw [mapRoiLevel_of_nonneg hge] at hr
        obtain ⟨h1, h2⟩ := ih ht
        refine ⟨?_, ?_⟩
        · have hv := Option.some.inj hr
          simp only [List.map_cons, ← h1, hv]
        · intro r2 hr2
          rcases List.mem_cons.mp hr2 with rfl | hmem
          · exact hge
          · exact h2 r2 hmem

lemma targetLvls_length {finest : ℝ} {K : ℕ} {rois : List Roi} {tl : List ℤ}
    (h : targetLvls finest K rois = some tl) : tl.length = rois.length := by
  have := (targetLvls_eq_some h).1
  rw [this, List.length_map]

lemma mem_selIdx {tl : List ℤ} {ℓ i : ℕ} :
    i ∈ selIdx tl ℓ ↔ tl[i]? = some (ℓ : ℤ) := by
  rw [selIdx, List.mem_filter, List.mem_range, decide_eq_true_eq]
  constructor
  · exact fun h => h.2
  · intro h
    refine ⟨?_, h⟩
    by_contra hlen
    rw [List.getElem?_eq_none_iff.mpr (le_of_not_lt hlen)] at h
    exact Option.noConfusion h

lemma selIdx_nodup (tl : List ℤ) (ℓ : ℕ) : (selIdx tl ℓ).Nodup :=
  (List.nodup_range _).filter _

lemma getAll_eq_some_map {α : Type} (xs : List α) (G : ℕ → α) :
    ∀ is : List ℕ, (∀ j ∈ is, xs[j]? = some (G j)) → getAll xs is = some (is.map G) := by
  intro is
  induction is with
  | nil => intro _; rfl
  | cons i t ih =>
    intro h
    have hi := h i (List.mem_cons_self i t)
    rw [getAll, hi, ih (fun j hj => h j (List.mem_cons_of_mem _ hj))]
    rfl

lemma getAll_eq_none {α : Type} (xs : List α) {j : ℕ} (hj : xs.length ≤ j) :
    ∀ is : List ℕ, j ∈ is → getAll xs is = none := by
  intro is
  induction is with
  | nil => intro h; cases h
  | cons i t ih =>
    intro h
    rcases List.mem_cons.mp h with rfl | hmem
    · rw [getAll, List.getElem?_eq_none_iff.mpr hj]
    · rw [getAll]
      cases hx : xs[i]? with
      | none => rfl
      | some a => rw [ih hmem]; rfl

lemma filterMap_getElem_eq_map_getD {α : Type} (xs : List α) (d : α) :
    ∀ is : List ℕ, (∀ i ∈ is, i < xs.length) →
      is.filterMap (fun i => xs[i]?) = is.map (fun i => xs.getD i d) := by
  intro is
  induction is with
  | nil => intro _; rfl
  | cons i t ih =>
    intro h
    have hi : i < xs.length := h i (List.mem_cons_self i t)
    have hx : xs[i]? = some (xs.getD i d) := by
      rw [List.getD_eq_getElem?_getD, List.getElem?_eq_getElem hi]
      rfl
    simp only [List.filterMap_cons, hx, List.map_cons]
    rw [ih (fun j hj => h j (List.mem_cons_of_mem _ hj))]

lemma range_map_getD {α β : Type} (f : α → β) (d : α) :
    ∀ l : List α, (List.range l.length).map (fun i => f (l.getD i d)) = l.map f := by
  intro l
  induction l with
  | nil => rfl
  | cons a t ih =>
    rw [List.length_cons, List.range_succ_eq_map, List.map_cons, List.map_map]
    have : ((fun i => f ((a :: t).getD i d)) ∘ Nat.succ) = fun i => f (t.getD i d) := by
      funext i
      simp [List.getD_cons_succ]
    rw [List.getD_cons_zero, this, ih, List.map_cons]

lemma mem_zip_range {α : Type} :
    ∀ (cs : List α) (p : α × ℕ), p ∈ cs.zip (List.range cs.length) → cs[p.2]? = some p.1 := by
  intro cs
  induction cs with
  | nil => intro p h; simp at h
  | cons a t ih =>
    intro p h
    rw [List.length_cons, List.range_succ_eq_map, List.zip_cons_cons] at h
    rcases List.mem_cons.mp h with rfl | h2
    · simp
    · rw [List.zip_map_right] at h2
      rcases List.mem_map.mp h2 with ⟨q, hq, rfl⟩
      have hqt := ih q hq
      show (a :: t)[q.2.succ]? = some q.1
      rw [List.getElem?_cons_succ]
      exact hqt

/-- Partition property of the per-level index selection: when every
target level lies in [0, K), the concatenated index lists are a
permutation of all row positions. -/
lemma catIndices_perm {tl : List ℤ} {K : ℕ}
    (hin : ∀ v ∈ tl, 0 ≤ v ∧ v < (K:ℤ)) :
    (catIndices tl K).Perm (List.range tl.length) := by
  have hnd : (catIndices tl K).Nodup := by
    rw [catIndices, List.nodup_flatten]
    constructor
    · intro s hs
      rcases List.mem_map.mp hs with ⟨ℓ, _, rfl⟩
      exact selIdx_nodup tl ℓ
    · rw [List.pairwise_map]
      refine List.Pairwise.imp ?_ (List.pairwise_lt_range K)
      intro ℓ₁ ℓ₂ hlt i hi₁ hi₂
      rw [mem_selIdx] at hi₁ hi₂
      rw [hi₁] at hi₂
      have : (ℓ₁ : ℤ) = (ℓ₂ : ℤ) := Option.some.inj hi₂
      omega
  refine (List.perm_ext_iff_of_nodup hnd (List.nodup_range _)).mpr ?_
  intro i
  rw [catIndices, List.mem_flatten, List.mem_range]
  constructor
  · rintro ⟨s, hs, hi⟩
    rcases List.mem_map.mp hs with ⟨ℓ, _, rfl⟩
    have h2 := mem_selIdx.mp hi
    by_contra hlen
    rw [List.getElem?_eq_none_iff.mpr (le_of_not_lt hlen)] at h2
    exact Option.noConfusion h2
  · intro hi
    obtain ⟨v, hv⟩ : ∃ v, tl[i]? = some v := ⟨tl[i], List.getElem?_eq_getElem hi⟩
    have hvmem : v ∈ tl := List.getElem?_mem hv
    obtain ⟨h0, hK⟩ := hin v hvmem
    refine ⟨selIdx tl v.toNat, List.mem_map.mpr ⟨v.toNat, ?_, rfl⟩, ?_⟩
    · rw [List.mem_range]; omega
    · rw [mem_selIdx, hv, Option.some.injEq]
      omega

lemma argsortAsc_perm (cs : List ℕ) : (argsortAsc cs).Perm (List.range cs.length) := by
  rw [argsortAsc]
  have hp := (List.perm_insertionSort leFst (cs.zip (List.range cs.length))).map Prod.snd
  rwa [List.map_snd_zip cs (List.range cs.length) (by rw [List.length_range])] at hp

/-- Reassembly correctness: gathering the rows paired with a combined
index sequence through the ascending argsort restores original order. -/
lemma getAll_map_argsort {β : Type} (cs : List ℕ) (F : ℕ → β)
    (hperm : cs.Perm (List.range cs.length)) :
    getAll (cs.map F) (argsortAsc cs) = some ((List.range cs.length).map F) := by
  have hSperm : (List.insertionSort leFst (cs.zip (List.range cs.length))).Perm
      (cs.zip (List.range cs.length)) := List.perm_insertionSort _ _
  have hargs : argsortAsc cs
      = (List.insertionSort leFst (cs.zip (List.range cs.length))).map Prod.snd := rfl
  have hSpair : ∀ p ∈ List.insertionSort leFst (cs.zip (List.range cs.length)),
      cs[p.2]? = some p.1 := fun p hp => mem_zip_range cs p (hSperm.mem_iff.mp hp)
  have hfst : (List.insertionSort leFst (cs.zip (List.range cs.length))).map Prod.fst
      = List.range cs.length := by
    have h1 : ((List.insertionSort leFst (cs.zip (List.range cs.length))).map Prod.fst).Perm
        (List.range cs.length) := by
      have h2 := hSperm.map Prod.fst
      rw [List.map_fst_zip cs (List.range cs.length) (by rw [List.length_range])] at h2
      exact h2.trans hperm
    have hs1 : List.Sorted (fun a b : ℕ => a ≤ b)
        ((List.insertionSort leFst (cs.zip (List.range cs.length))).map Prod.fst) := by
      have hs : List.Sorted leFst (List.insertionSort leFst (cs.zip (List.range cs.length))) :=
        List.sorted_insertionSort leFst _
      rw [List.Sorted, List.pairwise_map]
      exact hs
    have hs2 : List.Sorted (fun a b : ℕ => a ≤ b) (List.range cs.length) :=
      List.Pairwise.imp le_of_lt (List.pairwise_lt_range cs.length)
    exact List.eq_of_perm_of_sorted h1 hs1 hs2
  have hG : ∀ j ∈ argsortAsc cs, (cs.map F)[j]? = some (F (cs.getD j 0)) := by
    intro j hj
    rw [hargs] at hj
    rcases List.mem_map.mp hj with ⟨p, hp, rfl⟩
    have hc := hSpair p hp
    rw [List.getElem?_map, hc, List.getD_eq_getElem?_getD, hc]
    rfl
  rw [getAll_eq_some_map (cs.map F) (fun j => F (cs.getD j 0)) (argsortAsc cs) hG]
  congr 1
  rw [hargs, List.map_map]
  calc (List.insertionSort leFst (cs.zip (List.range cs.length))).map
        ((fun j => F (cs.getD j 0)) ∘ Prod.snd)
      = (List.insertionSort leFst (cs.zip (List.range cs.length))).map (fun p => F p.1) :=
        List.map_congr_left (fun p hp => by
          show F (cs.getD p.2 0) = F p.1
          rw [List.getD_eq_getElem?_getD, hSpair p hp, Option.getD_some])
    _ = ((List.insertionSort leFst (cs.zip (List.range cs.length))).map Prod.fst).map F := by
        rw [List.map_map]; rfl
    _ = (List.range cs.length).map F := by rw [hfst]

lemma forward_nil {PF : Type} (finest : ℝ) (rr : ℝ → Roi → Roi) (rois : List Roi)
    (sf : Option ℝ) : forward finest rr ([] : List (Pool PF)) rois sf = none := rfl

lemma forward_single {PF : Type} (finest : ℝ) (rr : ℝ → Roi → Roi) (p : Pool PF)
    (rois : List Roi) (sf : Option ℝ) : forward finest rr [p] rois sf = p rois := rfl

lemma forward_multi_some {PF : Type} {finest : ℝ} {rr : ℝ → Roi → Roi}
    {p₀ p₁ : Pool PF} {rest : List (Pool PF)} {rois : List Roi} {sf : Option ℝ} {tl : List ℤ}
    (h : targetLvls finest (p₀ :: p₁ :: rest).length rois = some tl) :
    forward finest rr (p₀ :: p₁ :: rest) rois sf =
      if (poolBlocks (p₀ :: p₁ :: rest) (appliedRois rr rois sf) tl).isEmpty then none
      else getAll (poolBlocks (p₀ :: p₁ :: rest) (appliedRois rr rois sf) tl).flatten
        (argsortAsc (catIndices tl (p₀ :: p₁ :: rest).length)) := by
  simp only [forward]
  rw [h]

lemma forward_multi_none {PF : Type} {finest : ℝ} {rr : ℝ → Roi → Roi}
    {p₀ p₁ : Pool PF} {rest : List (Pool PF)} {rois : List Roi} {sf : Option ℝ}
    (h : targetLvls finest (p₀ :: p₁ :: rest).length rois = none) :
    forward finest rr (p₀ :: p₁ :: rest) rois sf = none := by
  simp only [forward]
  rw [h]

lemma levelRois_map (f : Roi → Roi) (rois : List Roi) (tl : List ℤ) (ℓ : ℕ) :
    levelRois (rois.map f) tl ℓ = (levelRois rois tl ℓ).map f := by
  rw [levelRois, levelRois, List.map_filterMap]
  simp only [List.getElem?_map]

/-- Pushing the rescale map into each level's pooler commutes with the
per-level loop: the routed subsets of the rescaled rows are the rescaled
routed subsets. -/
lemma poolBlocksAux_map_pools {PF : Type} (rois : List Roi) (f : Roi → Roi) (tl : List ℤ) :
    ∀ (ps : List (Pool PF)) (ℓ0 : ℕ),
      poolBlocksAux (rois.map f) tl ps ℓ0
        = poolBlocksAux rois tl (ps.map (fun p => fun rs => p (rs.map f))) ℓ0 := by
  intro ps
  induction ps with
  | nil => intro ℓ0; rfl
  | cons p ps ih =>
    intro ℓ0
    simp only [List.map_cons, poolBlocksAux, levelRois_map]
    cases hpp : p ((levelRois rois tl ℓ0).map f) with
    | none => simp [ih]
    | some out => simp [ih]

/-- The per-level loop on the all-succeeding rowwise pooler family:
every level contributes exactly its routed subset mapped through its
per-RoI pooling function. -/
lemma poolBlocksAux_rowwise {PF : Type} (g : ℕ → Roi → PF) (rois2 : List Roi) (tl : List ℤ) :
    ∀ (K' ℓ0 : ℕ),
      poolBlocksAux rois2 tl
        ((List.range' ℓ0 K').map (fun ℓ => (fun rs => some (rs.map (g ℓ)) : Pool PF))) ℓ0
        = (List.range' ℓ0 K').map (fun ℓ => (levelRois rois2 tl ℓ).map (g ℓ)) := by
  intro K'
  induction K' with
  | zero => intro ℓ0; rfl
  | succ n ih =>
    intro ℓ0
    rw [List.range'_succ, List.map_cons, List.map_cons, poolBlocksAux, ih (ℓ0 + 1)]

/-- Upper bound for the rows accumulated by the loop: every successful
level contributes at most the size of its routed index list. -/
lemma poolBlocksAux_flatten_length_le {PF : Type} (rois2 : List Roi) (tl : List ℤ) :
    ∀ (ps : List (Pool PF)) (ℓ0 : ℕ),
      (∀ p ∈ ps, ∀ rs out, p rs = some out → out.length = rs.length) →
      (poolBlocksAux rois2 tl ps ℓ0).flatten.length
        ≤ ((List.range' ℓ0 ps.length).map (fun ℓ => (selIdx tl ℓ).length)).sum := by
  intro ps
  induction ps with
  | nil => intro ℓ0 _; simp [poolBlocksAux]
  | cons p ps ih =>
    intro ℓ0 hrow
    have htail := ih (ℓ0 + 1) (fun q hq => hrow q (List.mem_cons_of_mem _ hq))
    rw [List.length_cons, List.range'_succ, List.map_cons, List.sum_cons, poolBlocksAux]
    cases hpp : p (levelRois rois2 tl ℓ0) with
    | none => exact le_trans htail (Nat.le_add_left _ _)
    | some out =>
      rw [List.flatten_cons, List.length_append]
      have hout : out.length ≤ (selIdx tl ℓ0).length := by
        rw [hrow p (List.mem_cons_self _ _) _ _ hpp, levelRois]
        exact List.length_filterMap_le _ _
      omega

/-- Strict accounting when some level with a routed subset fails: the
accumulated rows fall short of the total routed indices by at least that
level's share. -/
lemma poolBlocksAux_flatten_length_lt {PF : Type} (rois2 : List Roi) (tl : List ℤ) :
    ∀ (ps : List (Pool PF)) (ℓ0 j0 : ℕ) (h : j0 < ps.length),
      (∀ p ∈ ps, ∀ rs out, p rs = some out → out.length = rs.length) →
      ps.get ⟨j0, h⟩ (levelRois rois2 tl (ℓ0 + j0)) = none →
      (poolBlocksAux rois2 tl ps ℓ0).flatten.length + (selIdx tl (ℓ0 + j0)).length
        ≤ ((List.range' ℓ0 ps.length).map (fun ℓ => (selIdx tl ℓ).length)).sum := by
  intro ps
  induction ps with
  | nil => intro ℓ0 j0 h; exact absurd h (by simp)
  | cons p ps ih =>
    intro ℓ0 j0 h hrow hfail
    rw [List.length_cons, List.range'_succ, List.map_cons, List.sum_cons, poolBlocksAux]
    cases j0 with
    | zero =>
      simp only [Nat.add_zero] at hfail ⊢
      have hp0 : p (levelRois rois2 tl ℓ0) = none := hfail
      rw [hp0]
      have hle := poolBlocksAux_flatten_length_le rois2 tl ps (ℓ0 + 1)
        (fun q hq => hrow q (List.mem_cons_of_mem _ hq))
      show (poolBlocksAux rois2 tl ps (ℓ0 + 1)).flatten.length + (selIdx tl ℓ0).length
        ≤ (selIdx tl ℓ0).length
          + ((List.range' (ℓ0 + 1) ps.length).map (fun ℓ => (selIdx tl ℓ).length)).sum
      omega
    | succ j =>
      have hj : j < ps.length := Nat.lt_of_succ_lt_succ h
      have hfail2 : ps.get ⟨j, hj⟩ (levelRois rois2 tl (ℓ0 + 1 + j)) = none := by
        have harith : ℓ0 + (j + 1) = ℓ0 + 1 + j := by omega
        rw [← harith]
        exact hfail
      have htail := ih (ℓ0 + 1) j hj (fun q hq => hrow q (List.mem_cons_of_mem _ hq)) hfail2
      have harith2 : ℓ0 + (j + 1) = ℓ0 + 1 + j := by omega
      rw [harith2]
      cases hpp : p (levelRois rois2 tl ℓ0) with
      | none =>
        show (poolBlocksAux rois2 tl ps (ℓ0 + 1)).flatten.length
            + (selIdx tl (ℓ0 + 1 + j)).length
          ≤ (selIdx tl ℓ0).length
            + ((List.range' (ℓ0 + 1) ps.length).map (fun ℓ => (selIdx tl ℓ).length)).sum
        omega
      | some out =>
        show ((out :: poolBlocksAux rois2 tl ps (ℓ0 + 1)).flatten.length
            + (selIdx tl (ℓ0 + 1 + j)).length
          ≤ (selIdx tl ℓ0).length
            + ((List.range' (ℓ0 + 1) ps.length).map (fun ℓ => (selIdx tl ℓ).length)).sum)
        rw [List.flatten_cons, List.length_append]
        have hout : out.length ≤ (selIdx tl ℓ0).length := by
          rw [hrow p (List.mem_cons_self _ _) _ _ hpp, levelRois]
          exact List.length_filterMap_le _ _
        omega

/-- Length of the concatenated index tensor as a sum of per-level
sizes. -/
lemma catIndices_length (tl : List ℤ) (K : ℕ) :
    (catIndices tl K).length
      = ((List.range' 0 K).map (fun ℓ => (selIdx tl ℓ).length)).sum := by
  rw [catIndices, List.length_flatten, List.map_map, List.range_eq_range']
  rfl

lemma forward_two_or_more {PF : Type} {pools : List (Pool PF)} (h2 : 2 ≤ pools.length)
    {finest : ℝ} {rr : ℝ → Roi → Roi} {rois : List Roi} {sf : Option ℝ} {tl : List ℤ}
    (h : targetLvls finest pools.length rois = some tl) :
    forward finest rr pools rois sf =
      if (poolBlocks pools (appliedRois rr rois sf) tl).isEmpty then none
      else getAll (poolBlocks pools (appliedRois rr rois sf) tl).flatten
        (argsortAsc (catIndices tl pools.length)) := by
  rcases pools with _ | ⟨p₀, _ | ⟨p₁, rest⟩⟩
  · simp at h2
  · simp at h2
  · exact forward_multi_some h

lemma poolsOf_length {PF : Type} (g : ℕ → Roi → PF) (K : ℕ) :
    (poolsOf g K).length = K := by
  rw [poolsOf, List.length_map, List.length_range]

lemma lvlInt_one (finest : ℝ) (r : Roi) : lvlInt finest 1 r = 0 := by
  unfold lvlInt
  omega

lemma getD_map_of_lt {α β : Type} (f : α → β) (l : List α) (d : β) (d0 : α) {i : ℕ}
    (h : i < l.length) : (l.map f).getD i d = f (l.getD i d0) := by
  rw [List.getD_eq_getElem?_getD, List.getD_eq_getElem?_getD, List.getElem?_map,
    List.getElem?_eq_getElem h]
  rfl

lemma levelRois_eq_map {rois2 : List Roi} {tl : List ℤ} (hlen : tl.length = rois2.length)
    (ℓ : ℕ) :
    levelRois rois2 tl ℓ = (selIdx tl ℓ).map (fun i => rois2.getD i roiDefault) := by
  rw [levelRois]
  apply filterMap_getElem_eq_map_getD
  intro i hi
  have h2 := mem_selIdx.mp hi
  have h3 : i < tl.length := by
    by_contra hlen2
    rw [List.getElem?_eq_none_iff.mpr (le_of_not_lt hlen2)] at h2
    exact Option.noConfusion h2
  omega

lemma poolBlocks_poolsOf {PF : Type} (g : ℕ → Roi → PF) (K : ℕ) (rois2 : List Roi)
    (tl : List ℤ) :
    poolBlocks (poolsOf g K) rois2 tl
      = (List.range K).map (fun ℓ => (levelRois rois2 tl ℓ).map (g ℓ)) := by
  rw [poolBlocks, poolsOf, List.range_eq_range']
  exact poolBlocksAux_rowwise g rois2 tl K 0

lemma tl_mem_range {finest : ℝ} {K : ℕ} (hK : 1 ≤ K) {rois : List Roi} {v : ℤ}
    (hv : v ∈ rois.map (lvlInt finest K)) : 0 ≤ v ∧ v < (K:ℤ) := by
  rcases List.mem_map.mp hv with ⟨r, _, rfl⟩
  have h1 := lvlInt_nonneg finest hK r
  have h2 := lvlInt_le finest K r
  omega

/-- Full functional correctness of forward on the all-succeeding rowwise
pooler family and well-formed RoIs: the output is defined and its row i
is the assigned level's pooling function applied to rois[i]. -/
lemma forward_poolsOf_correct {PF : Type} (finest : ℝ) (rr : ℝ → Roi → Roi)
    (g : ℕ → Roi → PF) (rois : List Roi) (K : ℕ) (hK : 1 ≤ K)
    (hwf : ∀ r ∈ rois, 0 ≤ (r.x2 - r.x1) * (r.y2 - r.y1)) :
    forward finest rr (poolsOf g K) rois none
      = some ((List.range rois.length).map (pooledRowSpec finest K g rois)) := by
  rcases Nat.lt_or_ge K 2 with hK1 | hK2
  · -- single-level fast path
    have hKeq : K = 1 := by omega
    subst hKeq
    have hpools : poolsOf g 1 = [fun rs => some (rs.map (g 0))] := rfl
    rw [hpools, forward_single]
    congr 1
    have h1 : (List.range rois.length).map (pooledRowSpec finest 1 g rois)
        = (List.range rois.length).map (fun i => g 0 (rois.getD i roiDefault)) :=
      List.map_congr_left (fun i _ => by
        simp only [pooledRowSpec, lvlInt_one]
        rfl)
    rw [h1, range_map_getD]
  · -- multi-level scatter and gather path
    set tl := rois.map (lvlInt finest K) with htl_def
    have htl : targetLvls finest K rois = some tl := targetLvls_of_wf hwf
    have hplen : (poolsOf g K).length = K := poolsOf_length g K
    have htl2 : targetLvls finest (poolsOf g K).length rois = some tl := by
      rw [hplen]
      exact htl
    have h2le : 2 ≤ (poolsOf g K).length := by
      rw [hplen]
      exact hK2
    rw [forward_two_or_more h2le htl2,
      show appliedRois rr rois none = rois from rfl, hplen, poolBlocks_poolsOf]
    have hlen_tl : tl.length = rois.length := by
      rw [htl_def, List.length_map]
    have hperm0 : (catIndices tl K).Perm (List.range tl.length) := by
      refine catIndices_perm ?_
      intro v hv
      rw [htl_def] at hv
      exact tl_mem_range hK hv
    have hempty : ((List.range K).map
        (fun ℓ => (levelRois rois tl ℓ).map (g ℓ))).isEmpty = false := by
      cases hc : ((List.range K).map (fun ℓ => (levelRois rois tl ℓ).map (g ℓ))).isEmpty
      · rfl
      · exfalso
        have hnil := List.isEmpty_iff.mp hc
        have hlen0 := congrArg List.length hnil
        rw [List.length_map, List.length_range] at hlen0
        simp at hlen0
        omega
    rw [hempty]
    simp only [Bool.false_eq_true, if_false]
    have hpair : ((List.range K).map (fun ℓ => (levelRois rois tl ℓ).map (g ℓ))).flatten
        = (catIndices tl K).map
            (fun i => g ((tl.getD i 0).toNat) (rois.getD i roiDefault)) := by
      rw [catIndices, List.map_flatten, List.map_map]
      congr 1
      apply List.map_congr_left
      intro ℓ hℓ
      show (levelRois rois tl ℓ).map (g ℓ)
        = (selIdx tl ℓ).map (fun i => g ((tl.getD i 0).toNat) (rois.getD i roiDefault))
      rw [levelRois_eq_map hlen_tl, List.map_map]
      apply List.map_congr_left
      intro i hi
      have hi2 := mem_selIdx.mp hi
      have h3 : tl.getD i 0 = (ℓ:ℤ) := by
        rw [List.getD_eq_getElem?_getD, hi2]
        rfl
      show g ℓ (rois.getD i roiDefault)
        = g ((tl.getD i 0).toNat) (rois.getD i roiDefault)
      rw [h3, Int.toNat_natCast]
    have hNlen : (catIndices tl K).length = rois.length := by
      rw [hperm0.length_eq, List.length_range, hlen_tl]
    have hperm1 : (catIndices tl K).Perm (List.range (catIndices tl K).length) := by
      rw [hNlen, ← hlen_tl]
      exact hperm0
    have hget := getAll_map_argsort (catIndices tl K)
      (fun i => g ((tl.getD i 0).toNat) (rois.getD i roiDefault)) hperm1
    rw [hpair, hget, hNlen]
    congr 1
    apply List.map_congr_left
    intro i hi
    rw [List.mem_range] at hi
    show g ((tl.getD i 0).toNat) (rois.getD i roiDefault) = pooledRowSpec finest K g rois i
    rw [htl_def, getD_map_of_lt (lvlInt finest K) rois 0 roiDefault hi]
    rfl

lemma forward_two_or_more_none {PF : Type} {pools : List (Pool PF)} (h2 : 2 ≤ pools.length)
    {finest : ℝ} {rr : ℝ → Roi → Roi} {rois : List Roi} {sf : Option ℝ}
    (h : targetLvls finest pools.length rois = none) :
    forward finest rr pools rois sf = none := by
  rcases pools with _ | ⟨p₀, _ | ⟨p₁, rest⟩⟩
  · simp at h2
  · simp at h2
  · exact forward_multi_none h

lemma appliedRois_nil (rr : ℝ → Roi → Roi) (sf : Option ℝ) : appliedRois rr [] sf = [] := by
  cases sf <;> rfl

lemma selIdx_nil (ℓ : ℕ) : selIdx ([] : List ℤ) ℓ = [] := rfl

lemma catIndices_nil (K : ℕ) : catIndices ([] : List ℤ) K = [] := by
  rw [catIndices]
  rw [List.flatten_eq_nil_iff]
  intro l hl
  rcases List.mem_map.mp hl with ⟨ℓ, _, rfl⟩
  rfl

lemma poolBlocksAux_empty {PF : Type} :
    ∀ (ps : List (Pool PF)) (ℓ0 : ℕ), (∀ p ∈ ps, p [] = some []) →
      poolBlocksAux [] [] ps ℓ0 = ps.map (fun _ => ([] : List PF)) := by
  intro ps
  induction ps with
  | nil => intro ℓ0 _; rfl
  | cons p ps ih =>
    intro ℓ0 hp
    have h0 : p (levelRois [] [] ℓ0) = some [] := hp p (List.mem_cons_self _ _)
    rw [poolBlocksAux, h0, List.map_cons,
      ih (ℓ0 + 1) (fun q hq => hp q (List.mem_cons_of_mem _ hq))]

/-- With a single level the clamp pins every RoI to level 0, so the
level-0 routed subset is the full RoI list. -/
lemma levelRois_one_level (finest : ℝ) (rois : List Roi) :
    levelRois rois (rois.map (lvlInt finest 1)) 0 = rois := by
  have hsel : selIdx (rois.map (lvlInt finest 1)) 0 = List.range rois.length := by
    rw [selIdx, List.length_map]
    apply List.filter_eq_self.mpr
    intro i hi
    rw [List.mem_range] at hi
    rw [decide_eq_true_eq, List.getElem?_map, List.getElem?_eq_getElem hi]
    simp [lvlInt_one]
  rw [levelRois, hsel]
  have hb : ∀ i ∈ List.range rois.length, i < rois.length := fun i hi => List.mem_range.mp hi
  rw [filterMap_getElem_eq_map_getD rois roiDefault _ hb]
  have := range_map_getD (fun r : Roi => r) roiDefault rois
  simpa using this

/-- Concrete all-succeeding pooler tagging every row with 0. -/
def poolConst : Pool ℕ := fun rs => some (rs.map (fun _ => 0))

/-- Concrete always-failing pooler (its call raises). -/
def poolFail : Pool ℕ := fun _ => none

/-- Concrete rescale function: identity on boxes. -/
def rrId : ℝ → Roi → Roi := fun _ r => r

lemma wf_unit_big : ∀ r ∈ [roiUnit, roiBig], 0 ≤ (r.x2 - r.x1) * (r.y2 - r.y1) := by
  intro r hr
  rcases List.mem_cons.mp hr with rfl | hr2
  · show (0:ℝ) ≤ ((1:ℝ) - 0) * ((1:ℝ) - 0)
    norm_num
  rcases List.mem_cons.mp hr2 with rfl | hr3
  · show (0:ℝ) ≤ ((112:ℝ) - 0) * ((112:ℝ) - 0)
    norm_num
  · simp at hr3

lemma targetLvls_unit_big : targetLvls 56 2 [roiUnit, roiBig] = some [0, 1] := by
  rw [targetLvls_of_wf wf_unit_big, List.map_cons, List.map_cons, List.map_nil,
    lvlInt_roiUnit (by norm_num), lvlInt_roiBig (by norm_num)]

/-- Second RoI list entry for the batch-independence witness: the unit
box with a different batch index. -/
def roiUnitB : Roi := ⟨7, 0, 0, 1, 1⟩

/-- C1: for every feature pyramid with K >= 1 levels and every
well-formed RoI sequence (including sequences leaving some levels with
zero RoIs), when every level pooler succeeds rowwise, forward returns
exactly one row per RoI and row i is the pooled feature of rois[i] at
its assigned level: the reassembly permutation restores original input
order. -/
theorem C1_forward_order_preserving {PF : Type} (finest : ℝ) (rr : ℝ → Roi → Roi)
    (g : ℕ → Roi → PF) (rois : List Roi) (K : ℕ) (hK : 1 ≤ K)
    (hwf : ∀ r ∈ rois, 0 ≤ (r.x2 - r.x1) * (r.y2 - r.y1)) :
    forward finest rr (poolsOf g K) rois none
      = some ((List.range rois.length).map (pooledRowSpec finest K g rois))
    ∧ ((List.range rois.length).map (pooledRowSpec finest K g rois)).length
      = rois.length := by
  refine ⟨forward_poolsOf_correct finest rr g rois K hK hwf, ?_⟩
  rw [List.length_map, List.length_range]

theorem C1_forward_order_preserving_witness :
    1 ≤ 2 ∧ (∀ r ∈ [roiUnit, roiBig], 0 ≤ (r.x2 - r.x1) * (r.y2 - r.y1)) ∧
    (forward 56 rrId (poolsOf (fun ℓ _ => ℓ) 2) [roiUnit, roiBig] none
        = some ((List.range ([roiUnit, roiBig] : List Roi).length).map
            (pooledRowSpec 56 2 (fun ℓ _ => ℓ) [roiUnit, roiBig]))
      ∧ ((List.range ([roiUnit, roiBig] : List Roi).length).map
            (pooledRowSpec 56 2 (fun ℓ _ => ℓ) [roiUnit, roiBig])).length
        = ([roiUnit, roiBig] : List Roi).length) :=
  ⟨by norm_num, wf_unit_big,
    C1_forward_order_preserving 56 rrId (fun ℓ _ => ℓ) [roiUnit, roiBig] 2 (by norm_num)
      wf_unit_big⟩

/-- C2 counterexample: map_roi_levels does not always produce a level
index in [0, num_levels-1]; at the malformed RoI (0, 3, 0, 1, 2) the
sqrt argument is negative, the float scale is NaN, and no level is
produced at all. -/
theorem C2_level_always_defined_counterexample :
    mapRoiLevel 56 4 roiBad2 = none
    ∧ ¬ ∃ l : ℤ, mapRoiLevel 56 4 roiBad2 = some l ∧ 0 ≤ l ∧ l ≤ 3 := by
  refine ⟨mapRoiLevel_roiBad2 56 4, ?_⟩
  rintro ⟨l, hl, _⟩
  rw [mapRoiLevel_roiBad2] at hl
  exact Option.noConfusion hl

/-- C2 amended: for every RoI whose width times height product is
nonnegative and every num_levels >= 1, map_roi_levels assigns exactly
clamp(floor(log2(sqrt((x2-x1)(y2-y1))/finest_scale + 1e-6)), 0,
num_levels-1), and every assigned level lies in [0, num_levels-1]. -/
theorem C2_level_formula_amended (finest : ℝ) (K : ℕ) (r : Roi) (hK : 1 ≤ K)
    (hr : 0 ≤ (r.x2 - r.x1) * (r.y2 - r.y1)) :
    mapRoiLevel finest K r
      = some (min (max ⌊Real.logb 2
          (Real.sqrt ((r.x2 - r.x1) * (r.y2 - r.y1)) / finest + 1e-6)⌋ 0) ((K:ℤ) - 1))
    ∧ ∀ l : ℤ, mapRoiLevel finest K r = some l → 0 ≤ l ∧ l ≤ (K:ℤ) - 1 := by
  refine ⟨mapRoiLevel_of_nonneg hr, ?_⟩
  intro l hl
  rw [mapRoiLevel_of_nonneg hr] at hl
  have hle := Option.some.inj hl
  have h1 := lvlInt_nonneg finest hK r
  have h2 := lvlInt_le finest K r
  omega

theorem C2_level_formula_amended_witness :
    1 ≤ 4 ∧ 0 ≤ (roiUnit.x2 - roiUnit.x1) * (roiUnit.y2 - roiUnit.y1) ∧
    (mapRoiLevel 56 4 roiUnit
        = some (min (max ⌊Real.logb 2
            (Real.sqrt ((roiUnit.x2 - roiUnit.x1) * (roiUnit.y2 - roiUnit.y1)) / 56
              + 1e-6)⌋ 0) ((4:ℤ) - 1))
      ∧ ∀ l : ℤ, mapRoiLevel 56 4 roiUnit = some l → 0 ≤ l ∧ l ≤ (4:ℤ) - 1) :=
  ⟨by norm_num, by norm_num [roiUnit],
    C2_level_formula_amended 56 4 roiUnit (by norm_num) (by norm_num [roiUnit])⟩

/-- C4: the code has no clamp of the scale to nonnegative values before
the log2 step; at a malformed RoI with x2 < x1 the sqrt argument is
negative, the float scale is NaN, and map_roi_levels produces an
undefined level index instead of a clamped one. -/
theorem C4_missing_scale_clamp_nan : mapRoiLevel 56 4 roiBad = none :=
  mapRoiLevel_roiBad 56 4

/-- C6: with exactly one feature level, forward returns exactly the
level-0 pooler applied to the full unmodified RoI list: level
assignment, partitioning and reassembly are all skipped (the early
return even precedes the optional rescale). -/
theorem C6_single_level_bypass {PF : Type} (finest : ℝ) (rr : ℝ → Roi → Roi)
    (p : Pool PF) (rois : List Roi) (sf : Option ℝ) :
    forward finest rr [p] rois sf = p rois := rfl

/-- C8: with finest_scale 56, an RoI of scale exactly 112 = 56 * 2 is
assigned level 1 (each scale band is closed at its lower bound) while an
RoI of scale 111.999 is assigned level 0. -/
theorem C8_boundary_scale_bands :
    mapRoiLevel 56 4 roiBig = some 1 ∧ mapRoiLevel 56 4 roiMid = some 0 := by
  constructor
  · rw [mapRoiLevel_of_nonneg (by norm_num [roiBig]), lvlInt_roiBig (by norm_num)]
  · rw [mapRoiLevel_of_nonneg (by norm_num [roiMid]), lvlInt_roiMid (by norm_num)]

/-- C10: level assignment is independent of the batch-index column: two
RoI lists that agree rowwise in columns 1 through 4 receive identical
level assignments, since the scale uses only those columns. -/
theorem C10_batch_index_independent (finest : ℝ) (K : ℕ) (rois₁ rois₂ : List Roi)
    (h : List.Forall₂ (fun a b => a.x1 = b.x1 ∧ a.y1 = b.y1 ∧ a.x2 = b.x2 ∧ a.y2 = b.y2)
      rois₁ rois₂) :
    rois₁.map (mapRoiLevel finest K) = rois₂.map (mapRoiLevel finest K) := by
  induction h with
  | nil => rfl
  | cons hab _ ih =>
    obtain ⟨h1, h2, h3, h4⟩ := hab
    rw [List.map_cons, List.map_cons, ih]
    congr 1
    simp only [mapRoiLevel, lvlInt, h1, h2, h3, h4]

theorem C10_batch_index_independent_witness :
    List.Forall₂ (fun a b : Roi => a.x1 = b.x1 ∧ a.y1 = b.y1 ∧ a.x2 = b.x2 ∧ a.y2 = b.y2)
      [roiUnit] [roiUnitB]
    ∧ [roiUnit].map (mapRoiLevel 56 4) = [roiUnitB].map (mapRoiLevel 56 4) :=
  ⟨List.Forall₂.cons ⟨rfl, rfl, rfl, rfl⟩ List.Forall₂.nil,
    C10_batch_index_independent 56 4 [roiUnit] [roiUnitB]
      (List.Forall₂.cons ⟨rfl, rfl, rfl, rfl⟩ List.Forall₂.nil)⟩

/-- C3: if a level pooler call fails for a level whose routed subset is
nonempty, the whole forward call fails: the index list of the failed
level was still appended, so the final gather requests every row
position from a strictly shorter concatenation and hits an out-of-bounds
IndexError.  In particular no RoI is ever silently dropped from a
returned output. -/
theorem C3_pooler_failure_fatal {PF : Type} (finest : ℝ) (rr : ℝ → Roi → Roi)
    (pools : List (Pool PF)) (rois : List Roi) (tl : List ℤ) (ℓfail : ℕ)
    (htl : targetLvls finest pools.length rois = some tl)
    (hrow : ∀ p ∈ pools, ∀ rs out, p rs = some out → out.length = rs.length)
    (hℓ : ℓfail < pools.length)
    (hfail : pools.get ⟨ℓfail, hℓ⟩ (levelRois rois tl ℓfail) = none)
    (hne : selIdx tl ℓfail ≠ []) :
    forward finest rr pools rois none = none := by
  obtain ⟨htleq, hwf⟩ := targetLvls_eq_some htl
  rcases pools with _ | ⟨p₀, _ | ⟨p₁, rest⟩⟩
  · exact absurd hℓ (by simp)
  · -- single-level fast path: the failing call is the returned call
    have hℓ0 : ℓfail = 0 := by
      simp only [List.length_singleton] at hℓ
      omega
    subst hℓ0
    rw [forward_single]
    have h1 : p₀ (levelRois rois tl 0) = none := hfail
    have h2 : tl = rois.map (lvlInt finest 1) := htleq
    rw [h2, levelRois_one_level] at h1
    exact h1
  · have h2le : 2 ≤ (p₀ :: p₁ :: rest).length := by simp
    rw [forward_two_or_more h2le htl, show appliedRois rr rois none = rois from rfl]
    have hin : ∀ v ∈ tl, 0 ≤ v ∧ v < ((p₀ :: p₁ :: rest).length : ℤ) := by
      intro v hv
      rw [htleq] at hv
      exact tl_mem_range (by omega) hv
    have hperm : (catIndices tl (p₀ :: p₁ :: rest).length).Perm (List.range tl.length) :=
      catIndices_perm hin
    have hN1 : 1 ≤ tl.length := by
      obtain ⟨i, hi⟩ := List.exists_mem_of_ne_nil _ hne
      have h2 := mem_selIdx.mp hi
      by_contra h0
      rw [List.getElem?_eq_none_iff.mpr (by omega)] at h2
      exact Option.noConfusion h2
    cases hemp : (poolBlocks (p₀ :: p₁ :: rest) rois tl).isEmpty with
    | true => rw [if_pos rfl]
    | false =>
      simp only [Bool.false_eq_true, if_false]
      have hfail0 : (p₀ :: p₁ :: rest).get ⟨ℓfail, hℓ⟩
          (levelRois rois tl (0 + ℓfail)) = none := by
        rw [Nat.zero_add]
        exact hfail
      have hlt := poolBlocksAux_flatten_length_lt rois tl (p₀ :: p₁ :: rest) 0 ℓfail hℓ
        hrow hfail0
      rw [Nat.zero_add] at hlt
      have hsum : ((List.range' 0 (p₀ :: p₁ :: rest).length).map
          (fun ℓ => (selIdx tl ℓ).length)).sum
          = (catIndices tl (p₀ :: p₁ :: rest).length).length :=
        (catIndices_length tl _).symm
      have hclen : (catIndices tl (p₀ :: p₁ :: rest).length).length = tl.length := by
        rw [hperm.length_eq, List.length_range]
      have hpos : 1 ≤ (selIdx tl ℓfail).length := List.length_pos.mpr hne
      have hjmem : tl.length - 1 ∈ argsortAsc (catIndices tl (p₀ :: p₁ :: rest).length) := by
        have hp2 := argsortAsc_perm (catIndices tl (p₀ :: p₁ :: rest).length)
        rw [hp2.mem_iff, hclen, List.mem_range]
        omega
      refine getAll_eq_none _ ?_ _ hjmem
      rw [poolBlocks] at hemp ⊢
      omega

theorem C3_pooler_failure_fatal_witness :
    targetLvls 56 2 [roiUnit, roiBig] = some [0, 1]
    ∧ selIdx [0, 1] 1 ≠ []
    ∧ poolFail (levelRois [roiUnit, roiBig] [0, 1] 1) = none
    ∧ forward 56 rrId [poolConst, poolFail] [roiUnit, roiBig] none = none := by
  have hrow : ∀ p ∈ ([poolConst, poolFail] : List (Pool ℕ)), ∀ rs out,
      p rs = some out → out.length = rs.length := by
    intro p hp
    rcases List.mem_cons.mp hp with rfl | hp2
    · intro rs out h
      simp only [poolConst, Option.some.injEq] at h
      rw [← h, List.length_map]
    rcases List.mem_cons.mp hp2 with rfl | hp3
    · intro rs out h
      exact Option.noConfusion h
    · simp at hp3
  refine ⟨targetLvls_unit_big, by decide, rfl, ?_⟩
  exact C3_pooler_failure_fatal 56 rrId [poolConst, poolFail] [roiUnit, roiBig] [0, 1] 1
    targetLvls_unit_big hrow (by norm_num) rfl (by decide)

/-- C5: the optional rescale never changes routing: forward with a
scale factor equals forward without one where every level pooler is
pre-composed with the rescale of its received boxes.  Level assignment
is computed from the original boxes before the rescale, so the factor
affects only what each pooler receives (stated for K >= 2, where
routing exists). -/
theorem C5_rescale_after_routing {PF : Type} (finest : ℝ) (rr : ℝ → Roi → Roi)
    (pools : List (Pool PF)) (rois : List Roi) (s : ℝ) (h2 : 2 ≤ pools.length) :
    forward finest rr pools rois (some s)
      = forward finest rr
          (pools.map (fun p => fun rs : List Roi => p (rs.map (rr s)))) rois none := by
  have hlen : (pools.map (fun p => fun rs : List Roi => p (rs.map (rr s)))).length
      = pools.length :=
    List.length_map _ _
  cases htl : targetLvls finest pools.length rois with
  | none =>
    rw [forward_two_or_more_none h2 htl,
      forward_two_or_more_none (by rw [hlen]; exact h2) (by rw [hlen]; exact htl)]
  | some tl =>
    rw [forward_two_or_more h2 htl,
      forward_two_or_more (by rw [hlen]; exact h2) (by rw [hlen]; exact htl), hlen]
    rw [show appliedRois rr rois (some s) = rois.map (rr s) from rfl,
      show appliedRois rr rois none = rois from rfl]
    rw [poolBlocks, poolBlocks, poolBlocksAux_map_pools]

theorem C5_rescale_after_routing_witness :
    2 ≤ ([poolConst, poolConst] : List (Pool ℕ)).length
    ∧ forward 56 rrId [poolConst, poolConst] [roiUnit] (some 2)
      = forward 56 rrId
          (([poolConst, poolConst] : List (Pool ℕ)).map
            (fun p => fun rs : List Roi => p (rs.map (rrId 2)))) [roiUnit] none :=
  ⟨by norm_num,
    C5_rescale_after_routing 56 rrId [poolConst, poolConst] [roiUnit] 2 (by norm_num)⟩

/-- C7: the per-level selected index lists partition the row positions
0..N-1: their concatenation is a permutation of 0..N-1, every position
lies in exactly one level's list, and the per-level sizes sum to N. -/
theorem C7_level_partition (finest : ℝ) (K : ℕ) (rois : List Roi) (tl : List ℤ)
    (hK : 1 ≤ K) (htl : targetLvls finest K rois = some tl) :
    (catIndices tl K).Perm (List.range rois.length)
    ∧ (∀ i, i < rois.length → ∃! ℓ : ℕ, ℓ < K ∧ i ∈ selIdx tl ℓ)
    ∧ ((List.range K).map (fun ℓ => (selIdx tl ℓ).length)).sum = rois.length := by
  obtain ⟨htleq, hwf⟩ := targetLvls_eq_some htl
  have hlen_tl : tl.length = rois.length := by
    rw [htleq, List.length_map]
  have hin : ∀ v ∈ tl, 0 ≤ v ∧ v < (K:ℤ) := by
    intro v hv
    rw [htleq] at hv
    exact tl_mem_range hK hv
  have hperm : (catIndices tl K).Perm (List.range rois.length) := by
    rw [← hlen_tl]
    exact catIndices_perm hin
  refine ⟨hperm, ?_, ?_⟩
  · intro i hi
    have hib : i < tl.length := by omega
    obtain ⟨v, hv⟩ : ∃ v, tl[i]? = some v := ⟨tl[i], List.getElem?_eq_getElem hib⟩
    obtain ⟨h0, hKv⟩ := hin v (List.getElem?_mem hv)
    refine ⟨v.toNat, ⟨by omega, ?_⟩, ?_⟩
    · rw [mem_selIdx, hv, Option.some.injEq]
      omega
    · intro ℓ2 hℓ2
      obtain ⟨_, hmem2⟩ := hℓ2
      have h2 := mem_selIdx.mp hmem2
      rw [hv] at h2
      have h3 := Option.some.inj h2
      omega
  · have h1 := hperm.length_eq
    rw [List.length_range] at h1
    rw [← h1, catIndices, List.length_flatten, List.map_map]
    rfl

theorem C7_level_partition_witness :
    1 ≤ 2 ∧ targetLvls 56 2 [roiUnit, roiBig] = some [0, 1]
    ∧ ((catIndices [0, 1] 2).Perm (List.range ([roiUnit, roiBig] : List Roi).length)
      ∧ (∀ i, i < ([roiUnit, roiBig] : List Roi).length →
          ∃! ℓ : ℕ, ℓ < 2 ∧ i ∈ selIdx [0, 1] ℓ)
      ∧ ((List.range 2).map (fun ℓ => (selIdx [0, 1] ℓ).length)).sum
        = ([roiUnit, roiBig] : List Roi).length) :=
  ⟨by norm_num, targetLvls_unit_big,
    C7_level_partition 56 2 [roiUnit, roiBig] [0, 1] (by norm_num) targetLvls_unit_big⟩

/-- C9: on an empty RoI sequence (N = 0) forward returns the empty
pooled output (zero rows) without error, for any K >= 1, given that
each level pooler returns the empty row batch on the empty subset (the
rows-equal-input capability of spec 4.3). -/
theorem C9_empty_rois_ok {PF : Type} (finest : ℝ) (rr : ℝ → Roi → Roi)
    (pools : List (Pool PF)) (sf : Option ℝ) (hK : 1 ≤ pools.length)
    (hp : ∀ p ∈ pools, p [] = some ([] : List PF)) :
    forward finest rr pools [] sf = some [] := by
  rcases pools with _ | ⟨p₀, _ | ⟨p₁, rest⟩⟩
  · simp at hK
  · rw [forward_single]
    exact hp p₀ (List.mem_cons_self _ _)
  · have htl : targetLvls finest (p₀ :: p₁ :: rest).length [] = some [] := rfl
    rw [forward_multi_some htl, appliedRois_nil]
    rw [poolBlocks, poolBlocksAux_empty _ _ hp, List.map_cons]
    rw [show ((([] : List PF) :: (p₁ :: rest).map (fun _ => ([] : List PF))).isEmpty)
      = false from rfl]
    simp only [Bool.false_eq_true, if_false]
    rw [catIndices_nil, show argsortAsc [] = [] from rfl]
    rfl

theorem C9_empty_rois_ok_witness :
    1 ≤ ([poolConst, poolConst] : List (Pool ℕ)).length
    ∧ (∀ p ∈ ([poolConst, poolConst] : List (Pool ℕ)), p [] = some ([] : List ℕ))
    ∧ forward 56 rrId [poolConst, poolConst] [] none = some [] := by
  have hp : ∀ p ∈ ([poolConst, poolConst] : List (Pool ℕ)), p [] = some ([] : List ℕ) := by
    intro p hpmem
    rcases List.mem_cons.mp hpmem with rfl | hpm2
    · rfl
    rcases List.mem_cons.mp hpm2 with rfl | hpm3
    · rfl
    · simp at hpm3
  exact ⟨by norm_num, hp,
    C9_empty_rois_ok 56 rrId [poolConst, poolConst] none (by norm_num) hp⟩

end MMDet
